import Mathlib

/-!
Verification of the hibp-fast sources against their specification.

The C++ sources are shallowly embedded: C++ strings become `List Nat` of
character codes (for `include/hibp.hpp`, whose functions do character
arithmetic) or `List Char` (for the line handling in
`src/download/queuemgt.cpp`); `std::byte` values become `Nat` below 256;
`std::int32_t` becomes `Int` with explicit range checks where the C++
semantics depends on the width.  Loops whose C++ termination depends on a
runtime bound are embedded with an explicit fuel argument that equals the
bound the C++ code relies on; this keeps every definition executable by
kernel reduction.
-/

namespace Hibp

/-! ### include/hibp.hpp -/

/-- `nibble_to_char` from hibp.hpp: `'0' + uc` for `uc < 10`, else `'A' + uc - 10`.
Char codes: `'0'` = 48, `'A'` = 65. -/
def nibble_to_char (nibble : Nat) : Nat :=
  if nibble < 10 then 48 + nibble else 65 + (nibble - 10)

/-- `make_nibble` from hibp.hpp: `nibble = nibblechr - '0'`; if `nibble > 9` then
`nibble = (nibble & ~('a' - 'A')) - ('A' - '0') + 10`.  `'a' - 'A' = 32`, so
`nibble & ~32` clears bit 5, written here as subtracting `nibble &&& 32`;
`'A' - '0' = 17`.  (`Nat` subtraction truncates only on inputs where the C++
`assert(nibble >= 0 && nibble <= 15)` would already fail.) -/
def make_nibble (nibblechr : Nat) : Nat :=
  let nibble := nibblechr - 48
  if nibble > 9 then (nibble - (nibble &&& 32)) - 17 + 10 else nibble

/-- `make_byte` from hibp.hpp: `make_nibble(mschr) << 4U | make_nibble(lschr)`. -/
def make_byte (mschr lschr : Nat) : Nat :=
  make_nibble mschr <<< 4 ||| make_nibble lschr

/-- The record type `hibp::pawned_pw`: a 20-byte sha1 hash and a
`std::int32_t` count.  The hash is a list of byte values (length 20 in use). -/
structure pawned_pw where
  hash : List Nat
  count : Int
deriving Repr, DecidableEq

/-- Decimal digits of `n`, most significant first, as char codes; models the
output of `std::to_chars` for a non-negative value.  Fuel-based recursion
(`n + 1` is always enough fuel: a decimal expansion has at most `n + 1`
digits). -/
def nat_digits_aux (fuel n : Nat) : List Nat :=
  match fuel with
  | 0 => []
  | f + 1 => if n < 10 then [48 + n] else nat_digits_aux f (n / 10) ++ [48 + n % 10]

def nat_digits (n : Nat) : List Nat :=
  nat_digits_aux (n + 1) n

/-- Decimal rendering of a signed count, as produced by `std::to_chars` in
`pawned_pw::to_string`: a leading `'-'` (45) for negative values. -/
def int_to_chars (i : Int) : List Nat :=
  if i < 0 then 45 :: nat_digits i.natAbs else nat_digits i.toNat

/-- `pawned_pw::to_string` from hibp.hpp.  For each hash byte `h` it emits
`nibble_to_char(h & std::byte(0xF0U) >> 4U)` and then
`nibble_to_char(h & std::byte(0x0FU))`; in C++ the shift binds tighter than
`&`, so the first expression is `h & (0xF0 >> 4)`, i.e. `h &&& 15`, the same
low nibble as the second.  Then `':'` (58) and the decimal count. -/
def to_string (ppw : pawned_pw) : List Nat :=
  (ppw.hash.flatMap fun h =>
    [nibble_to_char (h &&& (0xF0 >>> 4)), nibble_to_char (h &&& 0x0F)])
  ++ [58] ++ int_to_chars ppw.count

/-- Is the char code an ASCII decimal digit (as `std::from_chars` accepts)? -/
def is_digit_code (c : Nat) : Bool :=
  48 ≤ c && c ≤ 57

/-- Is the char code an upper- or lowercase hex digit? -/
def is_hex_code (c : Nat) : Bool :=
  (48 ≤ c && c ≤ 57) || (65 ≤ c && c ≤ 70) || (97 ≤ c && c ≤ 102)

/-- Value of a run of decimal digit char codes, most significant first. -/
def digits_value (ds : List Nat) : Nat :=
  ds.foldl (fun a c => 10 * a + (c - 48)) 0

/-- `std::from_chars` for `std::int32_t`, as used in `convert_to_binary`:
an optional leading `'-'` (45), then the longest run of decimal digits.
Returns `none` when no digit is matched (`errc::invalid_argument`) or the
value does not fit `int32_t` (`errc::result_out_of_range`); in both cases the
C++ call leaves the output variable unmodified. -/
def from_chars_run (neg : Bool) (s : List Nat) : Option Int :=
  let ds := s.takeWhile is_digit_code
  if ds.isEmpty then none
  else
    let v : Int := (if neg then -1 else 1) * (digits_value ds : Int)
    if -(2 ^ 31) ≤ v ∧ v < 2 ^ 31 then some v else none

def from_chars_int32 : List Nat → Option Int
  | [] => none
  | c :: r => if c = 45 then from_chars_run true r else from_chars_run false (c :: r)

/-- The hash-filling loop of `convert_to_binary`: `b = make_byte(&text[2*i])`
for `i = 0, …, 19`, i.e. the bytes are read from consecutive pairs of chars. -/
def convert_to_binary_hash : Nat → List Nat → List Nat
  | 0, _ => []
  | n + 1, ms :: ls :: rest => make_byte ms ls :: convert_to_binary_hash n rest
  | _ + 1, _ => []

/-- `hibp::convert_to_binary` from hibp.hpp: decodes the first 40 chars into
20 hash bytes, sets `count = -1`, and only when `text.size() > 41` runs
`std::from_chars` on the chars after position 41, which overwrites `count`
exactly when it succeeds. -/
def convert_to_binary (text : List Nat) : pawned_pw :=
  let hash := convert_to_binary_hash 20 text
  let count : Int :=
    if text.length > 20 * 2 + 1 then
      match from_chars_int32 (text.drop (20 * 2 + 1)) with
      | some v => v
      | none => -1
    else -1
  { hash := hash, count := count }

/-- Modelled from the spec: `arrcmp::array_compare(a, b, arrcmp::three_way{})`
(arrcmp.hpp is not among the four sources).  The spec: "Ordering is
lexicographic over the hash bytes, most-significant first." -/
def array_compare_three_way : List Nat → List Nat → Ordering
  | [], [] => .eq
  | [], _ :: _ => .lt
  | _ :: _, [] => .gt
  | a :: as, b :: bs =>
    if a < b then .lt else if b < a then .gt else array_compare_three_way as bs

/-- Modelled from the spec: `arrcmp::array_compare(a, b, arrcmp::equal{})`;
the spec: "equality of records requires hash equality". -/
def array_compare_equal (a b : List Nat) : Bool :=
  a == b

/-- `pawned_pw::operator<=>`: compares only the `hash` members. -/
def pawned_pw_spaceship (a b : pawned_pw) : Ordering :=
  array_compare_three_way a.hash b.hash

/-- `pawned_pw::operator==`: compares only the `hash` members. -/
def pawned_pw_beq (a b : pawned_pw) : Bool :=
  array_compare_equal a.hash b.hash

/-! ### src/download/queuemgt.cpp -/

/-- The `std::getline` loop of `write_lines`, splitting the buffer at `'\n'`.
`getline` delivers the chars before the next `'\n'` (consuming it) and fails
only when the stream is already at end-of-file, so a buffer not ending in
`'\n'` still yields its final partial line, and a trailing `'\n'` yields no
extra empty line.  Fuel-based recursion: each round consumes at least one
char, so `s.length` is enough fuel. -/
def getlines_aux (fuel : Nat) (s : List Char) : List (List Char) :=
  match fuel with
  | 0 => []
  | f + 1 =>
    match s with
    | [] => []
    | _ :: _ =>
      let line := s.takeWhile (fun c => c != '\n')
      match s.dropWhile (fun c => c != '\n') with
      | [] => [line]
      | _ :: rest => line :: getlines_aux f rest

def getlines (s : List Char) : List (List Char) :=
  getlines_aux s.length s

/-- `prefixed_line.erase(prefixed_line.find_last_not_of('\r') + 1)` from
`write_lines`: removes the trailing run of `'\r'` chars (all of them). -/
def strip_trailing_cr (l : List Char) : List Char :=
  (l.reverse.dropWhile (fun c => c == '\r')).reverse

/-- The body of `write_lines`: for each line with `line.size() > 0`, build
`prefixed_line = dl.prefix + line`, strip trailing `'\r'`, call `write_fn`
with it and increment `recordcount`.  Returns the list of strings passed to
`write_fn`, in call order, together with the final `recordcount`. -/
def write_lines_loop (pre : List Char) : List (List Char) → List (List Char) × Nat
  | [] => ([], 0)
  | line :: rest =>
    if line.length > 0 then
      let out := strip_trailing_cr (pre ++ line)
      let r := write_lines_loop pre rest
      (out :: r.1, r.2 + 1)
    else write_lines_loop pre rest

/-- `write_lines(write_fn, dl)` from queuemgt.cpp, for a task with prefix
string `pre` and buffer `buffer`. -/
def write_lines (pre buffer : List Char) : List (List Char) × Nat :=
  write_lines_loop pre (getlines buffer)

/-- A `download` task: the 5-hex-digit prefix (kept as its numeric value;
`format05X` below renders the string the C++ code stores), the completion
flag, the response buffer, and the curl easy handle (`none` = `nullptr`;
the handle itself lives in requests.cpp, outside these sources). -/
structure download where
  pfx : Nat
  complete : Bool
  buffer : List Char
  easy : Option Nat
deriving Repr, DecidableEq

/-- The task `add_download(prefix)` enqueues for prefix number `p`. -/
def mk_download (p : Nat) : download :=
  { pfx := p, complete := false, buffer := [], easy := none }

/-- The loop of `fill_download_queue`:
`while (download_queue.size() != parallel_max && next_prefix != prefix_limit)
   add_download(format("{:05X}", next_prefix++));`.
Fuel-based: each round increments `next_prefix`, so `prefix_limit - next_prefix`
rounds are enough whenever `next_prefix ≤ prefix_limit` (the only situation the
program creates; otherwise the C++ loop would not terminate). -/
def fill_download_queue_loop (fuel pmax plim : Nat) (dlq : List download) (np : Nat) :
    List download × Nat :=
  match fuel with
  | 0 => (dlq, np)
  | f + 1 =>
    if dlq.length ≠ pmax ∧ np ≠ plim then
      fill_download_queue_loop f pmax plim (dlq ++ [mk_download np]) (np + 1)
    else (dlq, np)

def fill_download_queue (pmax plim : Nat) (dlq : List download) (np : Nat) :
    List download × Nat :=
  fill_download_queue_loop (plim - np) pmax plim dlq np

/-- One hex digit of `std::format("{:X}", ·)`: uppercase, `'0'`–`'9'` then
`'A'`–`'F'`. -/
def hex_digit_char (n : Nat) : Char :=
  if n < 10 then Char.ofNat (48 + n) else Char.ofNat (55 + n)

/-- Hex digits of `n`, most significant first (fuel-based as `nat_digits`). -/
def hex_chars_aux (fuel n : Nat) : List Char :=
  match fuel with
  | 0 => []
  | f + 1 => if n < 16 then [hex_digit_char n] else hex_chars_aux f (n / 16) ++ [hex_digit_char (n % 16)]

def hex_chars (n : Nat) : List Char :=
  hex_chars_aux (n + 1) n

/-- `std::format("{:05X}", n)`: uppercase hex, zero-padded to width 5. -/
def format05X (n : Nat) : List Char :=
  List.replicate (5 - (hex_chars n).length) '0' ++ hex_chars n

/-- Is the char an uppercase hex digit (including `'0'`–`'9'`)? -/
def is_upper_hex_char (c : Char) : Bool :=
  (48 ≤ c.toNat && c.toNat ≤ 57) || (65 ≤ c.toNat && c.toNat ≤ 70)

/-- Numeric value of a string of hex digits (used to invert `format05X`). -/
def hex_char_val (c : Char) : Nat :=
  if c.toNat ≤ 57 then c.toNat - 48 else c.toNat - 55

def hex_val (l : List Char) : Nat :=
  l.foldl (fun a c => 16 * a + hex_char_val c) 0

/-- The records a completed task contributes to the output file: `write_lines`
applied to its buffer with its formatted prefix, each record tagged with the
task's numeric prefix (the tag records which task emitted it). -/
def emit (t : download) : List (Nat × List Char) :=
  (write_lines (format05X t.pfx) t.buffer).1.map (fun r => (t.pfx, r))

/-- The queue state the main (writer) thread manages: `download_queue`,
`process_queue`, `next_prefix`, and the records written to disk so far. -/
structure qstate where
  dlq : List download
  pq : List download
  next_pfx : Nat
  out : List (Nat × List Char)
deriving Repr

/-- `process_completed_download_queue_entries`: pop tasks off the front of the
download queue while the front task is complete (stopping at the first
incomplete one), push them onto the process queue, then
`fill_download_queue()`. -/
def process_completed (pmax plim : Nat) (s : qstate) : qstate :=
  let done := s.dlq.takeWhile (fun t => t.complete)
  let rest := s.dlq.dropWhile (fun t => t.complete)
  let fr := fill_download_queue pmax plim rest s.next_pfx
  { dlq := fr.1, pq := s.pq ++ done, next_pfx := fr.2, out := s.out }

/-- The events of the two-thread downloader, as observed on the queues:
`mark` is the curl thread completing one in-flight download (filling its
buffer and setting `complete`, during `state::handle_requests`); `shuffle` is
`process_completed_download_queue_entries` (during `state::process_queues`);
`write` is one iteration of `write_completed_process_queue_entries`, which
pops the front of the process queue and writes its records. -/
inductive qstep (pmax plim : Nat) : qstate → qstate → Prop
  | mark (s : qstate) (i : Nat) (buf : List Char) (hi : i < s.dlq.length)
      (hc : (s.dlq.get ⟨i, hi⟩).complete = false) :
      qstep pmax plim s
        { s with dlq := s.dlq.set i { s.dlq.get ⟨i, hi⟩ with complete := true, buffer := buf } }
  | shuffle (s : qstate) : qstep pmax plim s (process_completed pmax plim s)
  | write (s : qstate) (t : download) (rest : List download) (h : s.pq = t :: rest) :
      qstep pmax plim s { s with pq := rest, out := s.out ++ emit t }

/-- The state after `run_threads` has primed the download queue with
`fill_download_queue()` and before any download completes. -/
def init_state (pmax plim start : Nat) : qstate :=
  let fr := fill_download_queue pmax plim [] start
  { dlq := fr.1, pq := [], next_pfx := fr.2, out := [] }

/-- The states a run of the downloader can reach. -/
def qreach (pmax plim start : Nat) : qstate → Prop :=
  Relation.ReflTransGen (qstep pmax plim) (init_state pmax plim start)

/-- `handle_exception` from queuemgt.cpp: if the slot holds an exception,
log it tagged with the thread name and report `true`. -/
def handle_exception (eptr : Option String) (thrname : String) : List String × Bool :=
  match eptr with
  | some e => (["Caught exception in " ++ thrname ++ " thread: " ++ e], true)
  | none => ([], false)

/-- The part of `run_threads` after `requests_thread.join()`: inspect both
exception slots (the code comments "use temps to avoid short cct eval" — both
calls happen), and if either fired, release the curl handle of every task left
in the download queue and raise the composite error.  Returns (log lines,
released handles, raised exception). -/
def run_threads_epilogue (requests_exception queuemgt_exception : Option String)
    (dlq : List download) : List String × List Nat × Option String :=
  let r1 := handle_exception requests_exception "requests"
  let r2 := handle_exception queuemgt_exception "queuemgt"
  let logs := r1.1 ++ r2.1
  if r1.2 || r2.2 then
    (logs, dlq.filterMap (fun t => t.easy),
      some "Thread exceptions thrown as above. Sorry, we are aborting. You can try rerunning with --resume")
  else (logs, [], none)

/-! ### app/hibp.cpp and app/hibp_server.cpp -/

def EXIT_SUCCESS : Nat := 0

def EXIT_FAILURE : Nat := 1

/-- The `try` block of `main` in app/hibp.cpp: `argc < 3` throws a usage
`domain_error`; constructing `flat_file_db` on an unopenable file throws;
otherwise the lookup runs and succeeds. -/
def hibp_main_try (argc : Nat) (db_open_ok : Bool) : Except String Unit :=
  if argc < 3 then
    Except.error "USAGE: hibp dbfile.bin plaintext_password"
  else if !db_open_ok then
    Except.error "cannot open database file"
  else Except.ok ()

/-- `main` of app/hibp.cpp: the whole body is wrapped in
`try { … } catch (const std::exception& e) { std::cerr << … }` and the
function ends with `return EXIT_SUCCESS;` on every path. -/
def hibp_main (argc : Nat) (db_open_ok : Bool) : Nat :=
  match hibp_main_try argc db_open_ok with
  | Except.ok _ => EXIT_SUCCESS
  | Except.error _ => EXIT_SUCCESS

/-- The backend-related server configuration after CLI parsing: whether each
`--…-db` / `--…-filter` option was given a (non-empty) filename. -/
structure server_cli where
  sha1_db : Bool
  ntlm_db : Bool
  sha1t64_db : Bool
  binfuse16_filter : Bool
  binfuse8_filter : Bool
deriving Repr, DecidableEq

/-- The `try` block of `main` in app/hibp_server.cpp: throw when no backend is
configured; `prep_sources` may throw (a db or filter file that fails to open);
`run_server` may throw. -/
def hibp_server_try (c : server_cli) (prep_ok run_ok : Bool) : Except String Unit :=
  if !(c.sha1_db || c.ntlm_db || c.sha1t64_db || c.binfuse16_filter || c.binfuse8_filter) then
    Except.error "You must one of --sha1-db, --ntlm-db or --sha1t64-db"
  else if !prep_ok then
    Except.error "cannot open a configured database or filter file"
  else if !run_ok then
    Except.error "server failed"
  else Except.ok ()

/-- `main` of app/hibp_server.cpp: `CLI11_PARSE` returns the parser's own exit
code (`app.exit(e)`) on a usage error; otherwise the `try` block runs, a caught
exception prints and returns `EXIT_FAILURE`, success returns `EXIT_SUCCESS`. -/
def hibp_server_main (parse_result : Except Nat server_cli) (prep_ok run_ok : Bool) : Nat :=
  match parse_result with
  | Except.error code => code
  | Except.ok c =>
    match hibp_server_try c prep_ok run_ok with
    | Except.ok _ => EXIT_SUCCESS
    | Except.error _ => EXIT_FAILURE

/-- The validator attached to `--threads` in `define_options`:
`->check(CLI::Range(1U, cli.threads))`.  `CLI::Range(lo, hi)` (third-party
CLI11, by its documented contract) accepts exactly the values in `[lo, hi]`;
`cli.threads` still holds its default (`default_threads` here — `cli_config_t`
is declared in srv/server.hpp, outside these sources) when `define_options`
builds the option. -/
def threads_range_check (default_threads n : Nat) : Bool :=
  1 ≤ n && n ≤ default_threads

/-! ### Helper lemmas -/

theorem array_compare_three_way_eq_iff :
    ∀ a b : List Nat, array_compare_three_way a b = .eq ↔ a = b := by
  intro a
  induction a with
  | nil => intro b; cases b <;> simp [array_compare_three_way]
  | cons x as ih =>
    intro b
    cases b with
    | nil => simp [array_compare_three_way]
    | cons y bs =>
      simp only [array_compare_three_way]
      by_cases hxy : x < y
      · simp only [if_pos hxy]
        constructor
        · intro h; exact absurd h (by simp)
        · rintro ⟨rfl, rfl⟩; omega
      · by_cases hyx : y < x
        · simp only [if_neg hxy, if_pos hyx]
          constructor
          · intro h; exact absurd h (by simp)
          · rintro ⟨rfl, rfl⟩; omega
        · have hxyeq : x = y := Nat.le_antisymm (Nat.not_lt.mp hyx) (Nat.not_lt.mp hxy)
          subst hxyeq
          simp only [if_neg hxy, if_neg hyx, ih bs, List.cons.injEq, true_and]

theorem array_compare_three_way_lt_iff :
    ∀ a b : List Nat, array_compare_three_way a b = .lt ↔ List.Lex (· < ·) a b := by
  intro a
  induction a with
  | nil =>
    intro b
    cases b with
    | nil =>
      simp only [array_compare_three_way]
      constructor
      · intro h; exact absurd h (by simp)
      · intro h; cases h
    | cons y bs => simp only [array_compare_three_way]; exact ⟨fun _ => List.Lex.nil, fun _ => trivial⟩
  | cons x as ih =>
    intro b
    cases b with
    | nil =>
      simp only [array_compare_three_way]
      constructor
      · intro h; exact absurd h (by simp)
      · intro h; cases h
    | cons y bs =>
      simp only [array_compare_three_way]
      by_cases hxy : x < y
      · simp only [if_pos hxy]
        exact ⟨fun _ => List.Lex.rel hxy, fun _ => trivial⟩
      · by_cases hyx : y < x
        · simp only [if_neg hxy, if_pos hyx]
          constructor
          · intro h; exact absurd h (by simp)
          · intro h
            cases h with
            | rel h => omega
            | cons h => omega
        · have hxyeq : x = y := Nat.le_antisymm (Nat.not_lt.mp hyx) (Nat.not_lt.mp hxy)
          subst hxyeq
          simp only [if_neg hxy, if_neg hyx, ih bs]
          constructor
          · intro h; exact List.Lex.cons h
          · intro h
            cases h with
            | rel h => omega
            | cons h => exact h

/-! ### Claim theorems: record model and CLI tools -/

/-- Claim C1 (code bug): the hex round trip fails.  In `to_string` the
expression `h & std::byte(0xF0U) >> 4U` parses as `h & (0xF0 >> 4)` because
the shift binds tighter than `&` in C++, so both emitted hex chars carry the
LOW nibble of the byte.  For the 20-byte hash starting with 0xAB = 171,
`to_string` renders "BB00…", and `convert_to_binary` parses that back to a
hash starting with 0xBB = 187 ≠ 171, refuting
`convert_to_binary(ppw.to_string()).hash == ppw.hash`. -/
theorem to_string_roundtrip_fails :
    (convert_to_binary (to_string { hash := 171 :: List.replicate 19 0, count := 0 })).hash
        = 187 :: List.replicate 19 0 ∧
      (187 :: List.replicate 19 0 : List Nat) ≠ 171 :: List.replicate 19 0 := by
  constructor
  · rfl
  · decide

/-- Claim C3 (counterexample): in app/hibp.cpp, a run whose database file
cannot be opened (a fatal error) still exits with code 0, not 1: the `catch`
block only prints and `main` ends with `return EXIT_SUCCESS`. -/
theorem hibp_exit_code_counterexample :
    hibp_main 3 false = 0 ∧ hibp_main 3 false ≠ 1 := by
  decide

/-- Claim C3 (amended): `hibp` always exits 0, even on usage or fatal errors
(they are only reported on stderr); `hibp_server` exits 0 on success, 1 on a
fatal error (no backend configured, an unopenable database/filter file, or a
server failure), and on a usage error returns the CLI parser's own exit code,
which the code does not constrain to be 2. -/
theorem exit_codes_amended :
    (∀ argc db_open_ok, hibp_main argc db_open_ok = EXIT_SUCCESS) ∧
    (∀ code prep_ok run_ok, hibp_server_main (Except.error code) prep_ok run_ok = code) ∧
    (∀ c prep_ok run_ok,
      hibp_server_main (Except.ok c) prep_ok run_ok =
        if (c.sha1_db || c.ntlm_db || c.sha1t64_db || c.binfuse16_filter || c.binfuse8_filter)
            && prep_ok && run_ok then EXIT_SUCCESS else EXIT_FAILURE) := by
  refine ⟨fun argc db => ?_, fun code p r => rfl, fun c p r => ?_⟩
  · unfold hibp_main
    cases hibp_main_try argc db <;> rfl
  · obtain ⟨s1, s2, s3, s4, s5⟩ := c
    revert p r s1 s2 s3 s4 s5
    decide

/-- Claim C4 (counterexample): `--threads` is validated by
`CLI::Range(1U, cli.threads)`, whose upper bound is the default worker count;
with default 4, the value 5 satisfies `n ≥ 1` yet is rejected, so `n ≥ 1` is
not the only constraint. -/
theorem threads_counterexample :
    threads_range_check 4 5 = false ∧ 1 ≤ 5 := by
  decide

/-- Claim C4 (amended): the server accepts `n` as the `--threads` value
exactly when `1 ≤ n ≤ d`, where `d` is the default worker count held in
`cli.threads` when `define_options` runs; every value above the default is
rejected. -/
theorem threads_range_spec :
    (∀ d n, threads_range_check d n = true ↔ (1 ≤ n ∧ n ≤ d)) ∧
    (∀ d, threads_range_check d (d + 1) = false) := by
  constructor
  · intro d n
    simp [threads_range_check]
  · intro d
    simp [threads_range_check]

/-- Claim C5: `pawned_pw`'s three-way comparison is the lexicographic
comparison of the hash bytes, most-significant byte first (`List.Lex (· < ·)`
on the byte lists, with `.eq` exactly on equal hashes), `==` holds exactly
when the hash bytes are equal, and the `count` fields never influence
ordering or equality. -/
theorem pawned_pw_ordering_spec (a b : pawned_pw) :
    (pawned_pw_spaceship a b = .lt ↔ List.Lex (· < ·) a.hash b.hash) ∧
    (pawned_pw_spaceship a b = .eq ↔ a.hash = b.hash) ∧
    (pawned_pw_beq a b = true ↔ a.hash = b.hash) ∧
    (∀ c₁ c₂ : Int,
      pawned_pw_spaceship { a with count := c₁ } { b with count := c₂ } = pawned_pw_spaceship a b ∧
      pawned_pw_beq { a with count := c₁ } { b with count := c₂ } = pawned_pw_beq a b) := by
  refine ⟨array_compare_three_way_lt_iff a.hash b.hash,
    array_compare_three_way_eq_iff a.hash b.hash, ?_, fun c₁ c₂ => ⟨rfl, rfl⟩⟩
  simp [pawned_pw_beq, array_compare_equal]

theorem takeWhile_eq_self_of_all {α : Type} {p : α → Bool} :
    ∀ {l : List α}, (∀ c ∈ l, p c = true) → l.takeWhile p = l := by
  intro l
  induction l with
  | nil => intro _; rfl
  | cons c r ih =>
    intro h
    have hc := h c (List.mem_cons_self c r)
    have ht := ih fun x hx => h x (List.mem_cons_of_mem c hx)
    simp [List.takeWhile_cons, hc, ht]

theorem dropWhile_eq_nil_of_all {α : Type} {p : α → Bool} :
    ∀ {l : List α}, (∀ c ∈ l, p c = true) → l.dropWhile p = [] := by
  intro l
  induction l with
  | nil => intro _; rfl
  | cons c r ih =>
    intro h
    simp only [List.dropWhile_cons, h c (List.mem_cons_self c r), if_true]
    exact ih fun x hx => h x (List.mem_cons_of_mem c hx)

theorem dropWhile_append_of_all {α : Type} {p : α → Bool} :
    ∀ {l₁ l₂ : List α}, (∀ c ∈ l₁, p c = true) →
      (l₁ ++ l₂).dropWhile p = l₂.dropWhile p := by
  intro l₁
  induction l₁ with
  | nil => intro l₂ _; rfl
  | cons c r ih =>
    intro l₂ h
    simp only [List.cons_append, List.dropWhile_cons, h c (List.mem_cons_self c r), if_true]
    exact ih fun x hx => h x (List.mem_cons_of_mem c hx)

theorem from_chars_run_digits (ds : List Nat) (hne : ds ≠ [])
    (hd : ∀ c ∈ ds, is_digit_code c = true)
    (hlt : (digits_value ds : Int) < 2 ^ 31) :
    from_chars_run false ds = some ((digits_value ds : Int)) := by
  have hemp : ds.isEmpty = false := by
    cases ds with
    | nil => exact absurd rfl hne
    | cons c r => rfl
  have hge : (0 : Int) ≤ (digits_value ds : Int) := Int.ofNat_nonneg _
  simp only [from_chars_run, takeWhile_eq_self_of_all hd, hemp, Bool.false_eq_true, if_false,
    Bool.false_eq_true, one_mul]
  rw [if_pos ⟨by omega, by omega⟩]

theorem from_chars_int32_digits (ds : List Nat) (hne : ds ≠ [])
    (hd : ∀ c ∈ ds, is_digit_code c = true)
    (hlt : (digits_value ds : Int) < 2 ^ 31) :
    from_chars_int32 ds = some ((digits_value ds : Int)) := by
  cases ds with
  | nil => exact absurd rfl hne
  | cons c r =>
    have hc : is_digit_code c = true := hd c (List.mem_cons_self c r)
    have hc45 : c ≠ 45 := by
      intro h
      subst h
      simp [is_digit_code] at hc
    simp only [from_chars_int32]
    rw [if_neg hc45]
    exact from_chars_run_digits _ hne hd hlt

theorem write_lines_loop_spec (pre : List Char) :
    ∀ ls : List (List Char),
      (write_lines_loop pre ls).1
          = (ls.filter (fun l => !l.isEmpty)).map (fun line => strip_trailing_cr (pre ++ line)) ∧
      (write_lines_loop pre ls).2 = (write_lines_loop pre ls).1.length := by
  intro ls
  induction ls with
  | nil => exact ⟨rfl, rfl⟩
  | cons line rest ih =>
    cases line with
    | nil =>
      simpa [write_lines_loop, List.filter_cons] using ih
    | cons c cs =>
      simp only [write_lines_loop, List.length_cons, Nat.succ_sub_one, gt_iff_lt,
        Nat.zero_lt_succ, if_true, List.filter_cons, List.isEmpty_cons, Bool.not_false,
        List.map_cons, List.length_cons]
      exact ⟨by rw [ih.1], by rw [ih.2]⟩

/-! ### Claim theorems: write_lines and count parsing -/

/-- Claim C6: `write_lines` invokes the write function exactly once per
non-empty line of the buffer (as split by the `getline` loop), passing the
line with the task's prefix prepended and all trailing carriage returns
removed; empty lines produce no record; the returned value equals the number
of records written. -/
theorem write_lines_per_line_spec (pre buffer : List Char) :
    (write_lines pre buffer).1
        = ((getlines buffer).filter (fun l => !l.isEmpty)).map
            (fun line => strip_trailing_cr (pre ++ line)) ∧
    (write_lines pre buffer).2 = (write_lines pre buffer).1.length :=
  write_lines_loop_spec pre (getlines buffer)

/-- Claim C7: `convert_to_binary`'s count sentinel.  For any text whose first
40 chars are hex digits: the count is -1 when the text is at most 41 chars
(no `:<decimal>` suffix) or when `std::from_chars` fails on the suffix; when
the suffix parses, the parsed value is returned — in particular an all-digit
suffix within `int32` range yields its decimal value. -/
theorem convert_to_binary_count_sentinel (text : List Nat)
    (hhex : ∀ c ∈ text.take 40, is_hex_code c = true) :
    (text.length ≤ 41 → (convert_to_binary text).count = -1) ∧
    (from_chars_int32 (text.drop 41) = none → (convert_to_binary text).count = -1) ∧
    (∀ v : Int, text.length > 41 → from_chars_int32 (text.drop 41) = some v →
        (convert_to_binary text).count = v) ∧
    (∀ ds : List Nat, ds ≠ [] → (∀ c ∈ ds, is_digit_code c = true) →
        (digits_value ds : Int) < 2 ^ 31 → text.drop 41 = ds →
        (convert_to_binary text).count = (digits_value ds : Int)) := by
  have base : (convert_to_binary text).count =
      (if text.length > 41 then
        match from_chars_int32 (text.drop 41) with
        | some v => v
        | none => -1
      else (-1 : Int)) := rfl
  refine ⟨?_, ?_, ?_, ?_⟩
  · intro h
    rw [base, if_neg (by omega)]
  · intro h
    rw [base]
    by_cases hlen : text.length > 41
    · rw [if_pos hlen, h]
    · rw [if_neg hlen]
  · intro v hlen h
    rw [base, if_pos hlen, h]
  · intro ds hne hd hlt hdrop
    have hlen : text.length > 41 := by
      by_contra hc
      have : text.drop 41 = [] := List.drop_eq_nil_of_le (by omega)
      rw [this] at hdrop
      exact hne hdrop.symm
    rw [base, if_pos hlen, hdrop, from_chars_int32_digits ds hne hd hlt]

/-- Claim C7 witness: parsing forty `'0'` chars followed by `":123"` yields
count 123. -/
theorem convert_to_binary_count_sentinel_witness :
    (convert_to_binary (List.replicate 40 48 ++ [58, 49, 50, 51])).count = 123 := by
  have h := (convert_to_binary_count_sentinel (List.replicate 40 48 ++ [58, 49, 50, 51])
    (by decide)).2.2.2 [49, 50, 51] (by decide) (by decide) (by decide) (by decide)
  exact h.trans (by decide)

/-- Claim C10: a buffer line that is non-empty but consists only of carriage
returns is not ignored: `write_lines` strips the `'\r'` run, passes just the
5-char prefix to the write function, and counts the line in the returned
record count. -/
theorem write_lines_cr_only_line (pre ls : List Char)
    (hlen : pre.length = 5) (hhex : ∀ c ∈ pre, is_upper_hex_char c = true)
    (hne : ls ≠ []) (hcr : ∀ c ∈ ls, c = '\x0d') :
    write_lines pre ls = ([pre], 1) := by
  have hnotnl : ∀ c ∈ ls, (c != '\n') = true := by
    intro c hc
    rw [hcr c hc]
    decide
  have hglines : getlines ls = [ls] := by
    cases ls with
    | nil => exact absurd rfl hne
    | cons c r =>
      show getlines_aux (r.length + 1) (c :: r) = [c :: r]
      simp only [getlines_aux]
      rw [takeWhile_eq_self_of_all hnotnl, dropWhile_eq_nil_of_all hnotnl]
  have hstrip : strip_trailing_cr (pre ++ ls) = pre := by
    unfold strip_trailing_cr
    rw [List.reverse_append]
    have hcrrev : ∀ c ∈ ls.reverse, (c == '\x0d') = true := by
      intro c hc
      rw [hcr c (List.mem_reverse.mp hc)]
      decide
    rw [dropWhile_append_of_all hcrrev]
    have hprerev : pre.reverse.dropWhile (fun c => c == '\x0d') = pre.reverse := by
      cases hpr : pre.reverse with
      | nil =>
        rfl
      | cons c t =>
        have hcpre : c ∈ pre := List.mem_reverse.mp (hpr ▸ List.mem_cons_self c t)
        have : (c == '\x0d') = false := by
          cases hb : c == '\x0d' with
          | false => rfl
          | true =>
            have : c = '\x0d' := by
              exact eq_of_beq hb
            rw [this] at hcpre
            have := hhex _ hcpre
            simp [is_upper_hex_char] at this
        rw [List.dropWhile_cons, this]
        simp
    rw [hprerev, List.reverse_reverse]
  unfold write_lines
  rw [hglines]
  cases ls with
  | nil => exact absurd rfl hne
  | cons c r =>
    simp only [write_lines_loop, List.length_cons, gt_iff_lt, Nat.zero_lt_succ, if_true]
    rw [hstrip]

/-- Claim C10 witness: prefix "ABCDE", buffer consisting of the single line
"\r": the write function is called once, with exactly the prefix. -/
theorem write_lines_cr_only_line_witness :
    write_lines ['A', 'B', 'C', 'D', 'E'] ['\x0d'] = ([['A', 'B', 'C', 'D', 'E']], 1) :=
  write_lines_cr_only_line ['A', 'B', 'C', 'D', 'E'] ['\x0d']
    (by decide) (by decide) (by decide) (by decide)

/-! ### Hex formatting and fill_download_queue lemmas -/

theorem hex_digit_char_upper : ∀ n, n < 16 → is_upper_hex_char (hex_digit_char n) = true := by
  decide

theorem hex_char_val_hex_digit_char : ∀ n, n < 16 → hex_char_val (hex_digit_char n) = n := by
  decide

theorem hex_val_append_singleton (l : List Char) (c : Char) :
    hex_val (l ++ [c]) = 16 * hex_val l + hex_char_val c := by
  simp [hex_val, List.foldl_append]

theorem hex_chars_aux_spec :
    ∀ fuel n, n < 16 ^ fuel →
      (∀ c ∈ hex_chars_aux fuel n, is_upper_hex_char c = true) ∧
      hex_val (hex_chars_aux fuel n) = n := by
  intro fuel
  induction fuel with
  | zero =>
    intro n h
    have : n = 0 := by simpa using h
    subst this
    refine ⟨?_, rfl⟩
    intro c hc
    cases hc
  | succ f ih =>
    intro n h
    by_cases h16 : n < 16
    · simp only [hex_chars_aux, if_pos h16]
      refine ⟨?_, ?_⟩
      · intro c hc
        rw [List.mem_singleton] at hc
        subst hc
        exact hex_digit_char_upper n h16
      · show hex_val ([] ++ [hex_digit_char n]) = n
        rw [hex_val_append_singleton, hex_char_val_hex_digit_char n h16]
        simp [hex_val]
    · have hdiv : n / 16 < 16 ^ f := by
        rw [Nat.div_lt_iff_lt_mul (by norm_num)]
        calc n < 16 ^ (f + 1) := h
        _ = 16 ^ f * 16 := by ring
      obtain ⟨ihc, ihv⟩ := ih (n / 16) hdiv
      simp only [hex_chars_aux, if_neg h16]
      refine ⟨?_, ?_⟩
      · intro c hc
        rcases List.mem_append.mp hc with hc | hc
        · exact ihc c hc
        · rw [List.mem_singleton] at hc
          subst hc
          exact hex_digit_char_upper _ (Nat.mod_lt n (by norm_num))
      · rw [hex_val_append_singleton, ihv,
          hex_char_val_hex_digit_char _ (Nat.mod_lt n (by norm_num))]
        exact Nat.div_add_mod n 16

theorem hex_chars_aux_length :
    ∀ fuel n k, n < 16 ^ k → 1 ≤ k → (hex_chars_aux fuel n).length ≤ k := by
  intro fuel
  induction fuel with
  | zero => intro n k _ _; simp [hex_chars_aux]
  | succ f ih =>
    intro n k hk h1
    by_cases h16 : n < 16
    · simp only [hex_chars_aux, if_pos h16, List.length_singleton]
      omega
    · have hk2 : 2 ≤ k := by
        by_contra hlt
        have hk1 : k = 1 := by omega
        subst hk1
        simp at hk
        omega
      have hdiv : n / 16 < 16 ^ (k - 1) := by
        rw [Nat.div_lt_iff_lt_mul (by norm_num)]
        calc n < 16 ^ k := hk
        _ = 16 ^ (k - 1) * 16 := by
              rw [← Nat.pow_succ]
              congr 1
              omega
      have := ih (n / 16) (k - 1) hdiv (by omega)
      simp only [hex_chars_aux, if_neg h16, List.length_append, List.length_singleton]
      omega

theorem hex_chars_spec (n : Nat) :
    (∀ c ∈ hex_chars n, is_upper_hex_char c = true) ∧ hex_val (hex_chars n) = n := by
  have hpow : n < 16 ^ (n + 1) := by
    calc n < 16 ^ n := Nat.lt_pow_self (by norm_num) n
    _ ≤ 16 ^ (n + 1) := Nat.pow_le_pow_right (by norm_num) (Nat.le_succ n)
  exact hex_chars_aux_spec (n + 1) n hpow

theorem hex_chars_length_le (n : Nat) (h : n < 16 ^ 5) : (hex_chars n).length ≤ 5 :=
  hex_chars_aux_length (n + 1) n 5 h (by norm_num)

theorem hex_val_replicate_zero :
    ∀ z (l : List Char), hex_val (List.replicate z '0' ++ l) = hex_val l := by
  intro z
  induction z with
  | zero => intro l; rfl
  | succ m ih =>
    intro l
    show hex_val ('0' :: (List.replicate m '0' ++ l)) = hex_val l
    have : hex_val ('0' :: (List.replicate m '0' ++ l))
        = (List.replicate m '0' ++ l).foldl (fun a c => 16 * a + hex_char_val c) 0 := rfl
    rw [this]
    exact ih l

theorem format05X_length (n : Nat) (h : n < 16 ^ 5) : (format05X n).length = 5 := by
  have := hex_chars_length_le n h
  simp only [format05X, List.length_append, List.length_replicate]
  omega

theorem format05X_charset (n : Nat) :
    ∀ c ∈ format05X n, is_upper_hex_char c = true := by
  intro c hc
  rcases List.mem_append.mp hc with hc | hc
  · rw [(List.mem_replicate.mp hc).2]
    decide
  · exact (hex_chars_spec n).1 c hc

theorem hex_val_format05X (n : Nat) : hex_val (format05X n) = n := by
  rw [format05X, hex_val_replicate_zero]
  exact (hex_chars_spec n).2

theorem format05X_inj {n m : Nat} (h : format05X n = format05X m) : n = m := by
  have hn := hex_val_format05X n
  have hm := hex_val_format05X m
  rw [h] at hn
  omega

theorem fill_download_queue_loop_spec (pmax plim : Nat) :
    ∀ (fuel : Nat) (dlq : List download) (np : Nat),
      np ≤ plim → plim - np ≤ fuel → dlq.length ≤ pmax →
      ∃ k,
        fill_download_queue_loop fuel pmax plim dlq np
            = (dlq ++ (List.range' np k).map mk_download, np + k) ∧
        np + k ≤ plim ∧ dlq.length + k ≤ pmax ∧
        (dlq.length + k = pmax ∨ np + k = plim) := by
  intro fuel
  induction fuel with
  | zero =>
    intro dlq np h1 h2 h3
    refine ⟨0, by simp [fill_download_queue_loop], by omega, by omega, Or.inr (by omega)⟩
  | succ f ih =>
    intro dlq np h1 h2 h3
    by_cases hg : dlq.length ≠ pmax ∧ np ≠ plim
    · have hnp : np < plim := by omega
      have hlen : dlq.length < pmax := Nat.lt_of_le_of_ne h3 hg.1
      obtain ⟨k, hk1, hk2, hk3, hk4⟩ :=
        ih (dlq ++ [mk_download np]) (np + 1) (by omega) (by omega) (by simp; omega)
      simp only [fill_download_queue_loop, if_pos hg]
      have e1 : dlq ++ [mk_download np] ++ (List.range' (np + 1) k).map mk_download
          = dlq ++ (List.range' np (k + 1)).map mk_download := by
        rw [List.append_assoc, List.range'_succ]
        rfl
      have e2 : np + 1 + k = np + (k + 1) := by omega
      refine ⟨k + 1, ?_, by omega, ?_, ?_⟩
      · rw [hk1, e1, e2]
      · simp only [List.length_append, List.length_singleton] at hk3
        omega
      · simp only [List.length_append, List.length_singleton] at hk4
        rcases hk4 with h | h
        · exact Or.inl (by omega)
        · exact Or.inr (by omega)
    · simp only [fill_download_queue_loop, if_neg hg]
      refine ⟨0, by simp, by omega, by omega, ?_⟩
      by_cases he : dlq.length = pmax
      · exact Or.inl (by omega)
      · have : np = plim := by
          by_contra hnp
          exact hg ⟨he, hnp⟩
        exact Or.inr (by omega)

theorem pairwise_lt_range1 : ∀ (n s : Nat), List.Pairwise (· < ·) (List.range' s n) := by
  intro n
  induction n with
  | zero => intro s; exact List.Pairwise.nil
  | succ m ih =>
    intro s
    rw [List.range'_succ]
    refine List.Pairwise.cons ?_ (ih (s + 1))
    intro a ha
    obtain ⟨i, _, rfl⟩ := List.mem_range'.mp ha
    omega

theorem mem_range1_bounds {s n m : Nat} (h : m ∈ List.range' s n) : s ≤ m ∧ m < s + n := by
  obtain ⟨i, hi, rfl⟩ := List.mem_range'.mp h
  omega

/-! ### Claim theorem: fill_download_queue backpressure -/

/-- Claim C8: run with a download queue holding at most `parallel_max` tasks
and `next_prefix ≤ prefix_limit ≤ 16^5`, `fill_download_queue` appends new
tasks for consecutive ascending prefixes — each exactly once, each formatted
by `{:05X}` as 5 uppercase hex digits — until the queue holds exactly
`parallel_max` tasks or `next_prefix` reaches `prefix_limit`, and the queue
never exceeds `parallel_max` tasks. -/
theorem fill_download_queue_backpressure (pmax plim np : Nat) (dlq : List download)
    (hq : dlq.length ≤ pmax) (hnp : np ≤ plim) (hlim : plim ≤ 16 ^ 5) :
    ∃ k,
      fill_download_queue pmax plim dlq np
          = (dlq ++ (List.range' np k).map mk_download, np + k) ∧
      np + k ≤ plim ∧
      dlq.length + k ≤ pmax ∧
      (dlq.length + k = pmax ∨ np + k = plim) ∧
      List.Pairwise (· < ·) (List.range' np k) ∧
      ((List.range' np k).map format05X).Pairwise (· ≠ ·) ∧
      (∀ p ∈ List.range' np k, (format05X p).length = 5 ∧
          ∀ c ∈ format05X p, is_upper_hex_char c = true) := by
  obtain ⟨k, hk1, hk2, hk3, hk4⟩ :=
    fill_download_queue_loop_spec pmax plim (plim - np) dlq np hnp (Nat.le_refl _) hq
  refine ⟨k, hk1, hk2, hk3, hk4, pairwise_lt_range1 k np, ?_, ?_⟩
  · rw [List.pairwise_map]
    refine List.Pairwise.imp_of_mem ?_ (pairwise_lt_range1 k np)
    intro a b _ _ hab heq
    exact absurd (format05X_inj heq) (by omega)
  · intro p hp
    have hb := mem_range1_bounds hp
    have hplt : p < 16 ^ 5 := by omega
    exact ⟨format05X_length p hplt, format05X_charset p⟩

/-- Claim C8 witness: with `parallel_max = 2`, `prefix_limit = 3`, an empty
queue and `next_prefix = 1`, the fill stops with the queue full at 2 tasks. -/
theorem fill_download_queue_backpressure_witness :
    ∃ k,
      fill_download_queue 2 3 [] 1
          = ([] ++ (List.range' 1 k).map mk_download, 1 + k) ∧
      1 + k ≤ 3 ∧
      ([] : List download).length + k ≤ 2 ∧
      (([] : List download).length + k = 2 ∨ 1 + k = 3) ∧
      List.Pairwise (· < ·) (List.range' 1 k) ∧
      ((List.range' 1 k).map format05X).Pairwise (· ≠ ·) ∧
      (∀ p ∈ List.range' 1 k, (format05X p).length = 5 ∧
          ∀ c ∈ format05X p, is_upper_hex_char c = true) :=
  fill_download_queue_backpressure 2 3 1 [] (by decide) (by decide) (by norm_num)

/-! ### Downloader queue invariant (claim C2) -/

/-- The prefixes of all tasks still owned by the run (written part `w`,
process queue, download queue), in pipeline order. -/
def all_pfx (w pq dlq : List download) : List Nat :=
  (w ++ pq ++ dlq).map (fun t => t.pfx)

theorem all_pfx_eq (w pq dlq : List download) :
    all_pfx w pq dlq
      = w.map (fun t => t.pfx) ++ pq.map (fun t => t.pfx) ++ dlq.map (fun t => t.pfx) := by
  simp [all_pfx]

/-- The downloader invariant: the records on disk are exactly those of an
already-written task list `w`; prefixes strictly increase along
written ++ process queue ++ download queue; every owned prefix is below
`next_prefix`; the download queue holds exactly the consecutive prefixes just
below `next_prefix`; and the queue never exceeds `parallel_max`. -/
def qinv (pmax plim : Nat) (s : qstate) : Prop :=
  ∃ w : List download,
    s.out = w.flatMap emit ∧
    List.Pairwise (· < ·) (all_pfx w s.pq s.dlq) ∧
    (∀ p ∈ all_pfx w s.pq s.dlq, p < s.next_pfx) ∧
    s.dlq.map (fun t => t.pfx)
      = List.range' (s.next_pfx - s.dlq.length) s.dlq.length ∧
    s.dlq.length ≤ s.next_pfx ∧
    s.next_pfx ≤ plim ∧
    s.dlq.length ≤ pmax

theorem map_pfx_mk (l : List Nat) :
    (l.map mk_download).map (fun t => t.pfx) = l := by
  rw [List.map_map]
  exact List.map_id l

theorem map_pfx_set (l : List download) (i : Nat) (t : download) :
    ∀ (hi : i < l.length), t.pfx = (l.get ⟨i, hi⟩).pfx →
      (l.set i t).map (fun d => d.pfx) = l.map (fun d => d.pfx) := by
  induction l generalizing i with
  | nil => intro hi; exact absurd hi (by simp)
  | cons c r ih =>
    intro hi ht
    cases i with
    | zero =>
      simp only [List.set_cons_zero, List.map_cons]
      rw [ht]
      rfl
    | succ j =>
      simp only [List.set_cons_succ, List.map_cons]
      rw [ih j (by simpa using hi) ht]

theorem qinv_init (pmax plim start : Nat) (hs : start ≤ plim) :
    qinv pmax plim (init_state pmax plim start) := by
  obtain ⟨k, hf1, hf2, hf3, hf4⟩ :=
    fill_download_queue_loop_spec pmax plim (plim - start) [] start hs (Nat.le_refl _)
      (Nat.zero_le _)
  have hinit : init_state pmax plim start
      = { dlq := (List.range' start k).map mk_download, pq := [], next_pfx := start + k,
          out := [] } := by
    simp only [init_state, fill_download_queue, hf1, List.nil_append]
  rw [hinit]
  have hm : ((List.range' start k).map mk_download).map (fun t => t.pfx) = List.range' start k :=
    map_pfx_mk _
  have hlen : ((List.range' start k).map mk_download).length = k := by
    simp
  refine ⟨[], rfl, ?_, ?_, ?_, ?_, hf2, ?_⟩
  · show List.Pairwise (· < ·) (all_pfx [] [] ((List.range' start k).map mk_download))
    rw [all_pfx_eq]
    simp only [List.map_nil, List.nil_append]
    rw [hm]
    exact pairwise_lt_range1 k start
  · show ∀ p ∈ all_pfx [] [] ((List.range' start k).map mk_download), p < start + k
    intro p hp
    rw [all_pfx_eq] at hp
    simp only [List.map_nil, List.nil_append] at hp
    rw [hm] at hp
    have := mem_range1_bounds hp
    omega
  · show ((List.range' start k).map mk_download).map (fun t => t.pfx)
        = List.range' (start + k - ((List.range' start k).map mk_download).length)
            ((List.range' start k).map mk_download).length
    rw [hm, hlen]
    congr 1
    omega
  · show ((List.range' start k).map mk_download).length ≤ start + k
    rw [hlen]
    omega
  · show ((List.range' start k).map mk_download).length ≤ pmax
    rw [hlen]
    omega

theorem qinv_mark (pmax plim : Nat) (s : qstate) (i : Nat) (buf : List Char)
    (hi : i < s.dlq.length) (hinv : qinv pmax plim s) :
    qinv pmax plim
      { s with dlq := s.dlq.set i { s.dlq.get ⟨i, hi⟩ with complete := true, buffer := buf } } := by
  obtain ⟨w, h1, h2, h3, h4, h5, h6, h7⟩ := hinv
  have hmap : (s.dlq.set i { s.dlq.get ⟨i, hi⟩ with complete := true, buffer := buf }).map
      (fun d => d.pfx) = s.dlq.map (fun d => d.pfx) :=
    map_pfx_set s.dlq i _ hi rfl
  have hall : all_pfx w s.pq (s.dlq.set i { s.dlq.get ⟨i, hi⟩ with complete := true, buffer := buf })
      = all_pfx w s.pq s.dlq := by
    rw [all_pfx_eq, all_pfx_eq, hmap]
  refine ⟨w, h1, ?_, ?_, ?_, ?_, h6, ?_⟩
  · rw [hall]
    exact h2
  · rw [hall]
    exact h3
  · rw [hmap, List.length_set]
    exact h4
  · rw [List.length_set]
    exact h5
  · rw [List.length_set]
    exact h7

theorem qinv_shuffle (pmax plim : Nat) (s : qstate) (hinv : qinv pmax plim s) :
    qinv pmax plim (process_completed pmax plim s) := by
  obtain ⟨w, h1, h2, h3, h4, h5, h6, h7⟩ := hinv
  have hsplit : s.dlq.takeWhile (fun t => t.complete) ++ s.dlq.dropWhile (fun t => t.complete)
      = s.dlq := List.takeWhile_append_dropWhile _ _
  have hlensplit : (s.dlq.takeWhile (fun t => t.complete)).length
      + (s.dlq.dropWhile (fun t => t.complete)).length = s.dlq.length := by
    rw [← List.length_append, hsplit]
  obtain ⟨k2, hf1, hf2, hf3, hf4⟩ :=
    fill_download_queue_loop_spec pmax plim (plim - s.next_pfx)
      (s.dlq.dropWhile (fun t => t.complete)) s.next_pfx h6 (Nat.le_refl _) (by omega)
  have hs' : process_completed pmax plim s
      = { dlq := s.dlq.dropWhile (fun t => t.complete)
              ++ (List.range' s.next_pfx k2).map mk_download,
          pq := s.pq ++ s.dlq.takeWhile (fun t => t.complete),
          next_pfx := s.next_pfx + k2, out := s.out } := by
    simp only [process_completed, fill_download_queue, hf1]
  have hmapsplit : (s.dlq.takeWhile (fun t => t.complete)).map (fun t => t.pfx)
      ++ (s.dlq.dropWhile (fun t => t.complete)).map (fun t => t.pfx)
      = s.dlq.map (fun t => t.pfx) := by
    rw [← List.map_append, hsplit]
  have hrangesplit : List.range' (s.next_pfx - s.dlq.length) s.dlq.length
      = List.range' (s.next_pfx - s.dlq.length) (s.dlq.takeWhile (fun t => t.complete)).length
        ++ List.range'
            (s.next_pfx - s.dlq.length + (s.dlq.takeWhile (fun t => t.complete)).length)
            (s.dlq.dropWhile (fun t => t.complete)).length := by
    rw [List.range'_append_1]
    congr 1
    omega
  have hmaprest : (s.dlq.dropWhile (fun t => t.complete)).map (fun t => t.pfx)
      = List.range'
          (s.next_pfx - (s.dlq.dropWhile (fun t => t.complete)).length)
          (s.dlq.dropWhile (fun t => t.complete)).length := by
    have hcat : (s.dlq.takeWhile (fun t => t.complete)).map (fun t => t.pfx)
        ++ (s.dlq.dropWhile (fun t => t.complete)).map (fun t => t.pfx)
        = List.range' (s.next_pfx - s.dlq.length) (s.dlq.takeWhile (fun t => t.complete)).length
          ++ List.range'
              (s.next_pfx - s.dlq.length + (s.dlq.takeWhile (fun t => t.complete)).length)
              (s.dlq.dropWhile (fun t => t.complete)).length := by
      rw [hmapsplit, h4, hrangesplit]
    have hlens : ((s.dlq.takeWhile (fun t => t.complete)).map (fun t => t.pfx)).length
        = (List.range' (s.next_pfx - s.dlq.length)
            (s.dlq.takeWhile (fun t => t.complete)).length).length := by
      simp
    have := (List.append_inj hcat hlens).2
    rw [this]
    congr 1
    omega
  have hmapdlq' : (s.dlq.dropWhile (fun t => t.complete)
        ++ (List.range' s.next_pfx k2).map mk_download).map (fun t => t.pfx)
      = List.range' (s.next_pfx - (s.dlq.dropWhile (fun t => t.complete)).length)
          ((s.dlq.dropWhile (fun t => t.complete)).length + k2) := by
    rw [List.map_append, hmaprest, map_pfx_mk]
    have e : s.next_pfx - (s.dlq.dropWhile (fun t => t.complete)).length
        + (s.dlq.dropWhile (fun t => t.complete)).length = s.next_pfx := by omega
    calc List.range' (s.next_pfx - (s.dlq.dropWhile (fun t => t.complete)).length)
          (s.dlq.dropWhile (fun t => t.complete)).length ++ List.range' s.next_pfx k2
        = List.range' (s.next_pfx - (s.dlq.dropWhile (fun t => t.complete)).length)
            (s.dlq.dropWhile (fun t => t.complete)).length
          ++ List.range'
              (s.next_pfx - (s.dlq.dropWhile (fun t => t.complete)).length
                + (s.dlq.dropWhile (fun t => t.complete)).length) k2 := by rw [e]
      _ = _ := by
        rw [List.range'_append_1]
        congr 1
        omega
  have halleq : all_pfx w (s.pq ++ s.dlq.takeWhile (fun t => t.complete))
        (s.dlq.dropWhile (fun t => t.complete) ++ (List.range' s.next_pfx k2).map mk_download)
      = all_pfx w s.pq s.dlq ++ List.range' s.next_pfx k2 := by
    rw [all_pfx_eq, all_pfx_eq, List.map_append, List.map_append, map_pfx_mk, ← hmapsplit]
    simp [List.append_assoc]
  rw [hs']
  refine ⟨w, h1, ?_, ?_, ?_, ?_, hf2, ?_⟩
  · show List.Pairwise (· < ·) (all_pfx w (s.pq ++ s.dlq.takeWhile (fun t => t.complete))
        (s.dlq.dropWhile (fun t => t.complete) ++ (List.range' s.next_pfx k2).map mk_download))
    rw [halleq]
    refine List.pairwise_append.mpr ⟨h2, pairwise_lt_range1 _ _, ?_⟩
    intro a ha b hb
    exact lt_of_lt_of_le (h3 a ha) (mem_range1_bounds hb).1
  · show ∀ p ∈ all_pfx w (s.pq ++ s.dlq.takeWhile (fun t => t.complete))
        (s.dlq.dropWhile (fun t => t.complete) ++ (List.range' s.next_pfx k2).map mk_download),
        p < s.next_pfx + k2
    intro p hp
    rw [halleq] at hp
    rcases List.mem_append.mp hp with hp | hp
    · exact lt_of_lt_of_le (h3 p hp) (by omega)
    · exact (mem_range1_bounds hp).2
  · show (s.dlq.dropWhile (fun t => t.complete)
        ++ (List.range' s.next_pfx k2).map mk_download).map (fun t => t.pfx)
      = List.range' (s.next_pfx + k2 - (s.dlq.dropWhile (fun t => t.complete)
          ++ (List.range' s.next_pfx k2).map mk_download).length)
          (s.dlq.dropWhile (fun t => t.complete)
            ++ (List.range' s.next_pfx k2).map mk_download).length
    have hlen' : (s.dlq.dropWhile (fun t => t.complete)
        ++ (List.range' s.next_pfx k2).map mk_download).length
        = (s.dlq.dropWhile (fun t => t.complete)).length + k2 := by simp
    rw [hlen', hmapdlq']
    congr 1
    omega
  · show (s.dlq.dropWhile (fun t => t.complete)
        ++ (List.range' s.next_pfx k2).map mk_download).length ≤ s.next_pfx + k2
    simp only [List.length_append, List.length_map, List.length_range']
    omega
  · show (s.dlq.dropWhile (fun t => t.complete)
        ++ (List.range' s.next_pfx k2).map mk_download).length ≤ pmax
    simp only [List.length_append, List.length_map, List.length_range']
    omega

theorem qinv_write (pmax plim : Nat) (s : qstate) (t : download) (rest : List download)
    (h : s.pq = t :: rest) (hinv : qinv pmax plim s) :
    qinv pmax plim { s with pq := rest, out := s.out ++ emit t } := by
  obtain ⟨w, h1, h2, h3, h4, h5, h6, h7⟩ := hinv
  have halleq : all_pfx (w ++ [t]) rest s.dlq = all_pfx w s.pq s.dlq := by
    rw [h, all_pfx_eq, all_pfx_eq]
    simp [List.append_assoc]
  refine ⟨w ++ [t], ?_, ?_, ?_, h4, h5, h6, h7⟩
  · show s.out ++ emit t = (w ++ [t]).flatMap emit
    rw [h1]
    simp
  · rw [halleq]
    exact h2
  · rw [halleq]
    exact h3

theorem qinv_of_qreach (pmax plim start : Nat) (hs : start ≤ plim) (s : qstate)
    (h : qreach pmax plim start s) : qinv pmax plim s := by
  induction h with
  | refl => exact qinv_init pmax plim start hs
  | tail _ hstep ih =>
    cases hstep with
    | mark i buf hi hc => exact qinv_mark pmax plim _ i buf hi ih
    | shuffle => exact qinv_shuffle pmax plim _ ih
    | write t rest hpq => exact qinv_write pmax plim _ t rest hpq ih

theorem pairwise_le_of_const {l : List Nat} {v : Nat} (h : ∀ x ∈ l, x = v) :
    List.Pairwise (· ≤ ·) l := by
  induction l with
  | nil => exact List.Pairwise.nil
  | cons a r ih =>
    refine List.Pairwise.cons ?_ (ih fun x hx => h x (List.mem_cons_of_mem a hx))
    intro b hb
    rw [h a (List.mem_cons_self a r), h b (List.mem_cons_of_mem a hb)]

theorem mem_emit_fst {t : download} {x : Nat} (hx : x ∈ (emit t).map Prod.fst) : x = t.pfx := by
  simp only [emit, List.map_map, List.mem_map, Function.comp] at hx
  obtain ⟨r, _, hr⟩ := hx
  exact hr.symm

theorem mem_flatMap_emit_fst {w : List download} {x : Nat}
    (hx : x ∈ (w.flatMap emit).map Prod.fst) : ∃ u ∈ w, x = u.pfx := by
  simp only [List.mem_map, List.mem_flatMap] at hx
  obtain ⟨p, ⟨u, hu, hp⟩, hfst⟩ := hx
  refine ⟨u, hu, ?_⟩
  simp only [emit, List.mem_map] at hp
  obtain ⟨r, _, hpr⟩ := hp
  rw [← hfst, ← hpr]

theorem pairwise_le_flatMap_emit {w : List download}
    (hw : List.Pairwise (· < ·) (w.map (fun t => t.pfx))) :
    List.Pairwise (· ≤ ·) ((w.flatMap emit).map Prod.fst) := by
  induction w with
  | nil => exact List.Pairwise.nil
  | cons t w' ih =>
    rw [List.flatMap_cons, List.map_append]
    rw [List.map_cons] at hw
    rcases List.pairwise_cons.mp hw with ⟨hrel, htail⟩
    refine List.pairwise_append.mpr
      ⟨pairwise_le_of_const (fun x hx => mem_emit_fst hx), ih htail, ?_⟩
    intro a ha b hb
    rw [mem_emit_fst ha]
    obtain ⟨u, hu, rfl⟩ := mem_flatMap_emit_fst hb
    exact Nat.le_of_lt (hrel u.pfx (List.mem_map_of_mem _ hu))

/-! ### Claim theorem: monotonic prefix order of the downloader output -/

/-- Claim C2: in every run of the two-queue downloader (any interleaving of
download completions, queue shuffles — which move tasks to the process queue
only while the front download-queue task is complete — and front-to-back
process-queue writes), the records emitted to disk carry ascending prefixes:
the output is the concatenation of per-task blocks for a strictly increasing
list of prefixes, with the records inside each block in the order
`write_lines` produced them from the upstream buffer. -/
theorem downloader_output_monotonic (pmax plim start : Nat) (hs : start ≤ plim)
    (s : qstate) (h : qreach pmax plim start s) :
    ∃ w : List download,
      s.out = w.flatMap emit ∧
      List.Pairwise (· < ·) (w.map (fun t => t.pfx)) ∧
      List.Pairwise (· ≤ ·) (s.out.map Prod.fst) := by
  obtain ⟨w, h1, h2, _, _, _, _, _⟩ := qinv_of_qreach pmax plim start hs s h
  have hww : List.Pairwise (· < ·) (w.map (fun t => t.pfx)) := by
    rw [all_pfx_eq] at h2
    exact (List.pairwise_append.mp (List.pairwise_append.mp h2).1).1
  refine ⟨w, h1, hww, ?_⟩
  rw [h1]
  exact pairwise_le_flatMap_emit hww

/-- Claim C2 witness: a concrete run with `parallel_max = prefix_limit = 1`:
prefix 0 is downloaded (buffer "a"), shuffled, and written; the resulting
output is the single record `("00000" ++ "a")` tagged with prefix 0, in
ascending prefix order. -/
theorem downloader_output_monotonic_witness :
    ∃ w : List download,
      ({ dlq := [], pq := [], next_pfx := 1,
          out := [(0, ['0', '0', '0', '0', '0', 'a'])] } : qstate).out = w.flatMap emit ∧
      List.Pairwise (· < ·) (w.map (fun t => t.pfx)) ∧
      List.Pairwise (· ≤ ·)
        (({ dlq := [], pq := [], next_pfx := 1,
            out := [(0, ['0', '0', '0', '0', '0', 'a'])] } : qstate).out.map Prod.fst) :=
  downloader_output_monotonic 1 1 0 (by decide) _
    (Relation.ReflTransGen.tail
      (Relation.ReflTransGen.tail
        (Relation.ReflTransGen.tail Relation.ReflTransGen.refl
          (qstep.mark (init_state 1 1 0) 0 ['a'] (by decide) (by decide)))
        (qstep.shuffle _))
      (qstep.write _ { pfx := 0, complete := true, buffer := ['a'], easy := none } []
        (by decide)))

/-! ### Claim theorem: error plurality in run_threads -/

/-- Claim C9: when either downloader thread terminates exceptionally,
`run_threads` inspects both exception slots (the code stores both
`handle_exception` results in temporaries precisely to avoid short-circuit
evaluation), logs each present exception tagged with its thread name, releases
the transport handle of every task remaining in the download queue, and
re-raises a single composite fatal error. -/
theorem run_threads_error_plurality (reqEx qmgtEx : Option String) (dlq : List download)
    (h : reqEx ≠ none ∨ qmgtEx ≠ none) :
    (∀ e, reqEx = some e →
        ("Caught exception in requests thread: " ++ e)
          ∈ (run_threads_epilogue reqEx qmgtEx dlq).1) ∧
    (∀ e, qmgtEx = some e →
        ("Caught exception in queuemgt thread: " ++ e)
          ∈ (run_threads_epilogue reqEx qmgtEx dlq).1) ∧
    (run_threads_epilogue reqEx qmgtEx dlq).2.1 = dlq.filterMap (fun t => t.easy) ∧
    (run_threads_epilogue reqEx qmgtEx dlq).2.2 =
      some "Thread exceptions thrown as above. Sorry, we are aborting. You can try rerunning with --resume" := by
  rcases reqEx with _ | a <;> rcases qmgtEx with _ | b
  · rcases h with h | h <;> exact absurd rfl h
  · refine ⟨fun e he => Option.noConfusion he, fun e he => ?_, rfl, rfl⟩
    injection he with he
    subst he
    simp [run_threads_epilogue, handle_exception]
  · refine ⟨fun e he => ?_, fun e he => Option.noConfusion he, rfl, rfl⟩
    injection he with he
    subst he
    simp [run_threads_epilogue, handle_exception]
  · refine ⟨fun e he => ?_, fun e he => ?_, rfl, rfl⟩
    · injection he with he
      subst he
      simp [run_threads_epilogue, handle_exception]
    · injection he with he
      subst he
      simp [run_threads_epilogue, handle_exception]

/-- Claim C9 witness: both slots filled, one queued task holding handle 7:
both exceptions logged with their tags, the handle released, the composite
raised. -/
theorem run_threads_error_plurality_witness :
    (∀ e, (some "boom" : Option String) = some e →
        ("Caught exception in requests thread: " ++ e)
          ∈ (run_threads_epilogue (some "boom") (some "bust")
              [{ pfx := 0, complete := false, buffer := [], easy := some 7 }]).1) ∧
    (∀ e, (some "bust" : Option String) = some e →
        ("Caught exception in queuemgt thread: " ++ e)
          ∈ (run_threads_epilogue (some "boom") (some "bust")
              [{ pfx := 0, complete := false, buffer := [], easy := some 7 }]).1) ∧
    (run_threads_epilogue (some "boom") (some "bust")
        [{ pfx := 0, complete := false, buffer := [], easy := some 7 }]).2.1 =
      ([{ pfx := 0, complete := false, buffer := [], easy := some 7 }] : List download).filterMap
        (fun t => t.easy) ∧
    (run_threads_epilogue (some "boom") (some "bust")
        [{ pfx := 0, complete := false, buffer := [], easy := some 7 }]).2.2 =
      some "Thread exceptions thrown as above. Sorry, we are aborting. You can try rerunning with --resume" :=
  run_threads_error_plurality (some "boom") (some "bust")
    [{ pfx := 0, complete := false, buffer := [], easy := some 7 }]
    (Or.inl (by simp))

end Hibp
